import Mathlib

/- Shallow embedding of the disk-scheduling engine in
   src/backend/app/algorithms/disk_scheduling.py (class DiskScheduler).
   Python ints are modelled as Int, Python lists as List, Python tuples as
   products, raised ValueErrors as an explicit error type threaded through
   Except/Option. Python's sorted on integer lists is any correct stable
   ascending sort; insertion sort is used because it evaluates inside the
   kernel. -/

namespace DiskSched

/-- Error type for the two ValueErrors the engine raises: a request out of
the disk's track range, and an unrecognized algorithm name. The
out-of-bounds message quotes the offending value and the valid range
0..disk_size-1, modelled as fields. -/
inductive SchedError : Type where
  | outOfBounds (req lo hi : Int)
  | unknownAlgorithm (name : String)
deriving DecidableEq

/-- State held by DiskScheduler.__init__: the (deep-copied) request list,
the initial head position and the disk size. -/
structure DiskScheduler : Type where
  requests : List Int
  initial_position : Int
  disk_size : Int
deriving DecidableEq

/-- DiskScheduler.validate_requests: scans the request list and raises on
the first request outside 0 <= r < disk_size. Returns the error raised, if
any. The initial position is not examined by the source. -/
def validate_requests : List Int → Int → Option SchedError
  | [], _ => none
  | r :: rs, disk_size =>
    if r < 0 ∨ disk_size ≤ r then some (.outOfBounds r 0 (disk_size - 1))
    else validate_requests rs disk_size

/-- DiskScheduler.__init__: stores the inputs and runs validate_requests,
so construction fails exactly when validation raises. -/
def mkDiskScheduler (requests : List Int) (initial_position : Int)
    (disk_size : Int) : Except SchedError DiskScheduler :=
  match validate_requests requests disk_size with
  | some e => .error e
  | none => .ok ⟨requests, initial_position, disk_size⟩

/-- DiskScheduler.calculate_seek_time: walks the sequence from the given
current position (the source starts at self.initial_position), summing
abs(track - current) and recording each (current, track) movement. -/
def calculate_seek_time (current : Int) : List Int → Int × List (Int × Int)
  | [] => (0, [])
  | track :: rest =>
    let r := calculate_seek_time track rest
    (|track - current| + r.1, (current, track) :: r.2)

/-- DiskScheduler.fcfs: the service order is the request list itself. -/
def DiskScheduler.fcfs (s : DiskScheduler) :
    List Int × Int × List (Int × Int) :=
  let sequence := s.requests
  let r := calculate_seek_time s.initial_position sequence
  (sequence, r.1, r.2)

/-- Python's min(best :: xs, key) : scans left to right and keeps the
current element only when its key is strictly smaller, so the first
element attaining the minimal key wins. -/
def pyMinKey (key : Int → Int) : Int → List Int → Int
  | best, [] => best
  | best, x :: xs => pyMinKey key (if key x < key best then x else best) xs

/-- Loop of DiskScheduler.sstf: repeatedly append the remaining request
closest to the current position (min with key abs(x - current)), erase its
first occurrence (list.remove) and continue from it. The while loop runs
once per element, modelled with a fuel argument instantiated at the
list's length. -/
def sstf_go : Nat → Int → List Int → List Int
  | _, _, [] => []
  | 0, _, _ => []
  | fuel + 1, pos, x :: xs =>
    let closest := pyMinKey (fun t => |t - pos|) x xs
    closest :: sstf_go fuel closest ((x :: xs).erase closest)

/-- DiskScheduler.sstf: greedy nearest-first ordering of the requests. -/
def DiskScheduler.sstf (s : DiskScheduler) :
    List Int × Int × List (Int × Int) :=
  let sequence := sstf_go s.requests.length s.initial_position s.requests
  let r := calculate_seek_time s.initial_position sequence
  (sequence, r.1, r.2)

/-- Python's sorted(l) on an integer list: the ascending sort. -/
def pySorted (l : List Int) : List Int := List.insertionSort (· ≤ ·) l

/-- Python's sorted(l, reverse=True) on an integer list: the descending
sort. -/
def pySortedDesc (l : List Int) : List Int := List.insertionSort (· ≥ ·) l

/-- Python's str.lower restricted to ASCII, the only characters the
dispatcher compares. -/
def asciiLower (c : Char) : Char :=
  if 'A' ≤ c ∧ c ≤ 'Z' then Char.ofNat (c.toNat + 32) else c

/-- Python's str.upper restricted to ASCII. -/
def asciiUpper (c : Char) : Char :=
  if 'a' ≤ c ∧ c ≤ 'z' then Char.ofNat (c.toNat - 32) else c

/-- String lowering, character by character (direction.lower()). -/
def pyLower (s : String) : String := ⟨s.data.map asciiLower⟩

/-- String uppering, character by character (algorithm.upper()). -/
def pyUpper (s : String) : String := ⟨s.data.map asciiUpper⟩

/-- DiskScheduler.scan: sort the requests, split on the current position
(>= goes ahead when moving right), service the ahead side in increasing
order, and when the other side is non-empty visit the edge track
disk_size - 1 and service the other side in decreasing order; mirrored
when the direction is not "right" (then the edge is track 0). The Python
truthiness test `if left_side:` is the non-emptiness test. -/
def DiskScheduler.scan (s : DiskScheduler) (direction : String) :
    List Int × Int × List (Int × Int) :=
  let remaining_requests := pySorted s.requests
  let current_position := s.initial_position
  let going_right := pyLower direction == "right"
  let sequence :=
    if going_right then
      let right_side := remaining_requests.filter
        (fun r => decide (r ≥ current_position))
      let left_side := remaining_requests.filter
        (fun r => decide (r < current_position))
      pySorted right_side ++
        (if left_side = [] then []
         else (s.disk_size - 1) :: pySortedDesc left_side)
    else
      let left_side := remaining_requests.filter
        (fun r => decide (r ≤ current_position))
      let right_side := remaining_requests.filter
        (fun r => decide (r > current_position))
      pySortedDesc left_side ++
        (if right_side = [] then [] else (0 : Int) :: pySorted right_side)
  let r := calculate_seek_time current_position sequence
  (sequence, r.1, r.2)

/-- DiskScheduler.c_scan: like scan, but after the edge in the moving
direction the head jumps to the opposite edge and services the other side
in the same direction (increasing when moving right, decreasing when
moving left). -/
def DiskScheduler.c_scan (s : DiskScheduler) (direction : String) :
    List Int × Int × List (Int × Int) :=
  let remaining_requests := pySorted s.requests
  let current_position := s.initial_position
  let going_right := pyLower direction == "right"
  let sequence :=
    if going_right then
      let right_side := remaining_requests.filter
        (fun r => decide (r ≥ current_position))
      let left_side := remaining_requests.filter
        (fun r => decide (r < current_position))
      pySorted right_side ++
        (if left_side = [] then []
         else (s.disk_size - 1) :: (0 : Int) :: pySorted left_side)
    else
      let left_side := remaining_requests.filter
        (fun r => decide (r ≤ current_position))
      let right_side := remaining_requests.filter
        (fun r => decide (r > current_position))
      pySortedDesc left_side ++
        (if right_side = [] then []
         else (0 : Int) :: (s.disk_size - 1) :: pySortedDesc right_side)
  let r := calculate_seek_time current_position sequence
  (sequence, r.1, r.2)

/-- DiskScheduler.look: the scan split without the edge visit; the source
returns early when there are no requests at all. -/
def DiskScheduler.look (s : DiskScheduler) (direction : String) :
    List Int × Int × List (Int × Int) :=
  let remaining_requests := pySorted s.requests
  let current_position := s.initial_position
  let going_right := pyLower direction == "right"
  if remaining_requests = [] then ([], 0, [])
  else
    let sequence :=
      if going_right then
        let right_side := remaining_requests.filter
          (fun r => decide (r ≥ current_position))
        let left_side := remaining_requests.filter
          (fun r => decide (r < current_position))
        pySorted right_side ++
          (if left_side = [] then [] else pySortedDesc left_side)
      else
        let left_side := remaining_requests.filter
          (fun r => decide (r ≤ current_position))
        let right_side := remaining_requests.filter
          (fun r => decide (r > current_position))
        pySortedDesc left_side ++
          (if right_side = [] then [] else pySorted right_side)
    let r := calculate_seek_time current_position sequence
    (sequence, r.1, r.2)

/-- DiskScheduler.c_look: the c_scan split without the edge waypoints; the
wrapped side keeps the sweep's own order. The source returns early when
there are no requests at all. -/
def DiskScheduler.c_look (s : DiskScheduler) (direction : String) :
    List Int × Int × List (Int × Int) :=
  let remaining_requests := pySorted s.requests
  let current_position := s.initial_position
  let going_right := pyLower direction == "right"
  if remaining_requests = [] then ([], 0, [])
  else
    let sequence :=
      if going_right then
        let right_side := remaining_requests.filter
          (fun r => decide (r ≥ current_position))
        let left_side := remaining_requests.filter
          (fun r => decide (r < current_position))
        pySorted right_side ++
          (if left_side = [] then [] else pySorted left_side)
      else
        let left_side := remaining_requests.filter
          (fun r => decide (r ≤ current_position))
        let right_side := remaining_requests.filter
          (fun r => decide (r > current_position))
        pySortedDesc left_side ++
          (if right_side = [] then [] else pySortedDesc right_side)
    let r := calculate_seek_time current_position sequence
    (sequence, r.1, r.2)

/-- Round-half-to-even of the fraction num/den (den positive): Python's
round applied to the exact quotient. -/
def roundHalfEven (num den : Int) : Int :=
  let n := num / den
  let rem := num % den
  if 2 * rem < den then n
  else if den < 2 * rem then n + 1
  else if n % 2 = 0 then n else n + 1

/-- Simulation result dictionary of DiskScheduler.simulate. The average
field in the source is a Python float: round(total_seek_time /
len(sequence), 2), i.e. the IEEE-754 double quotient rounded on its
decimal representation. Binary64 arithmetic is not modelled here; the
field below holds an integer count of hundredths obtained by
round-half-even of the exact rational quotient, which idealizes the
reported float and can differ from it at non-dyadic two-decimal ties
(e.g. a quotient of 1/40). No property below is stated about this
field's value. -/
structure SimResult : Type where
  algorithm : String
  sequence : List Int
  total_seek_time : Int
  average_seek_time_x100 : Int
  seek_operations : List (Int × Int)
  total_requests : Nat
  initial_position : Int
deriving DecidableEq

/-- Shared result packaging at the end of DiskScheduler.simulate: the
source computes total / len(sequence) when the sequence is non-empty and
0 otherwise, then rounds the resulting float to two decimal places. The
average field stores the idealized hundredths described on SimResult; the
float rounding of the source is not reproduced bit-for-bit. -/
def mkSimResult (s : DiskScheduler) (alg : String)
    (t : List Int × Int × List (Int × Int)) : SimResult :=
  { algorithm := alg
    sequence := t.1
    total_seek_time := t.2.1
    average_seek_time_x100 :=
      if t.1 = [] then 0 else roundHalfEven (100 * t.2.1) t.1.length
    seek_operations := t.2.2
    total_requests := s.requests.length
    initial_position := s.initial_position }

/-- DiskScheduler.simulate: uppercase the algorithm name, dispatch on it
(C-SCAN/CSCAN and C-LOOK/CLOOK both accepted), raise UnknownAlgorithm for
anything else, then package the uniform result record. -/
def DiskScheduler.simulate (s : DiskScheduler) (algorithm : String)
    (direction : String) : Except SchedError SimResult :=
  let alg := pyUpper algorithm
  if alg == "FCFS" then .ok (mkSimResult s alg s.fcfs)
  else if alg == "SSTF" then .ok (mkSimResult s alg s.sstf)
  else if alg == "SCAN" then .ok (mkSimResult s alg (s.scan direction))
  else if alg == "C-SCAN" || alg == "CSCAN" then
    .ok (mkSimResult s alg (s.c_scan direction))
  else if alg == "LOOK" then .ok (mkSimResult s alg (s.look direction))
  else if alg == "C-LOOK" || alg == "CLOOK" then
    .ok (mkSimResult s alg (s.c_look direction))
  else .error (.unknownAlgorithm alg)

/-- Recognized algorithm names after uppercasing, in dispatch order. -/
def knownAlgs : List String :=
  ["FCFS", "SSTF", "SCAN", "C-SCAN", "CSCAN", "LOOK", "C-LOOK", "CLOOK"]

/-- Chaining of a seek-operation list: the first movement starts at the
given position and every movement starts where the previous one ended. -/
def opsChain : Int → List (Int × Int) → Prop
  | _, [] => True
  | start, (f, t) :: rest => f = start ∧ opsChain t rest

/-- Spec-side ascending sort, written with a different sorting algorithm
(merge sort) so the sweep-policy theorems compare two independent
renderings of the ordering. -/
def specSortAsc (l : List Int) : List Int :=
  l.mergeSort (fun a b => decide (a ≤ b))

/-- Spec-side descending sort. -/
def specSortDesc (l : List Int) : List Int :=
  l.mergeSort (fun a b => decide (b ≤ a))

/-- Modelled from the spec's SCAN description: ahead requests (at or past
the position when moving right) in increasing order, then the edge track
disk_size - 1 exactly when a request lies behind, then the behind group in
decreasing order; mirrored on <= / > with edge 0 when moving left. -/
def scanSpec (reqs : List Int) (pos disk : Int) (goRight : Bool) :
    List Int :=
  if goRight then
    let ahead := reqs.filter (fun r => decide (r ≥ pos))
    let behind := reqs.filter (fun r => decide (r < pos))
    specSortAsc ahead ++
      (if behind = [] then [] else (disk - 1) :: specSortDesc behind)
  else
    let behind := reqs.filter (fun r => decide (r ≤ pos))
    let ahead := reqs.filter (fun r => decide (r > pos))
    specSortDesc behind ++
      (if ahead = [] then [] else (0 : Int) :: specSortAsc ahead)

/-- Modelled from the spec's C-SCAN description: after the first group the
head visits its edge, jumps to the opposite edge, and services the
remaining group sweeping in the same direction as before. -/
def cscanSpec (reqs : List Int) (pos disk : Int) (goRight : Bool) :
    List Int :=
  if goRight then
    let ahead := reqs.filter (fun r => decide (r ≥ pos))
    let behind := reqs.filter (fun r => decide (r < pos))
    specSortAsc ahead ++
      (if behind = [] then []
       else (disk - 1) :: (0 : Int) :: specSortAsc behind)
  else
    let behind := reqs.filter (fun r => decide (r ≤ pos))
    let ahead := reqs.filter (fun r => decide (r > pos))
    specSortDesc behind ++
      (if ahead = [] then []
       else (0 : Int) :: (disk - 1) :: specSortDesc ahead)

/-- Edge waypoints scan's sequence holds beyond the requests themselves:
the far edge exactly when a reversal is needed. -/
def scanExtra (s : DiskScheduler) (direction : String) : List Int :=
  if pyLower direction == "right" then
    if s.requests.filter (fun r => decide (r < s.initial_position)) = []
    then [] else [s.disk_size - 1]
  else
    if s.requests.filter (fun r => decide (r > s.initial_position)) = []
    then [] else [0]

/-- Edge waypoints c_scan's sequence holds beyond the requests: both edges
exactly when a wrap occurs. -/
def cscanExtra (s : DiskScheduler) (direction : String) : List Int :=
  if pyLower direction == "right" then
    if s.requests.filter (fun r => decide (r < s.initial_position)) = []
    then [] else [s.disk_size - 1, 0]
  else
    if s.requests.filter (fun r => decide (r > s.initial_position)) = []
    then [] else [0, s.disk_size - 1]

/-- Length of the recorded seek operations equals the serviced sequence's
length. -/
lemma calc_len (init : Int) (seq : List Int) :
    (calculate_seek_time init seq).2.length = seq.length := by
  induction seq generalizing init with
  | nil => rfl
  | cons t rest ih => simp [calculate_seek_time, ih]

/-- Total seek time is the sum of the absolute moves recorded in the
operation list. -/
lemma calc_sum (init : Int) (seq : List Int) :
    (calculate_seek_time init seq).1 =
      ((calculate_seek_time init seq).2.map (fun p => |p.2 - p.1|)).sum := by
  induction seq generalizing init with
  | nil => rfl
  | cons t rest ih => simp [calculate_seek_time, ih]

/-- The operation list chains: it starts at the initial position and each
movement starts where the previous one ended. -/
lemma calc_chain (init : Int) (seq : List Int) :
    opsChain init (calculate_seek_time init seq).2 := by
  induction seq generalizing init with
  | nil => trivial
  | cons t rest ih => exact ⟨rfl, ih t⟩

/-- C1: calculate_seek_time returns a total equal to the sum of
abs(to - from) over the returned operation list, which has the same length
as the input sequence, starts at the initial position and chains each
operation's destination into the next one's origin; the empty sequence
yields total 0 and no operations. -/
theorem calculate_seek_time_accounting :
    ∀ (init : Int) (seq : List Int),
      (calculate_seek_time init seq).2.length = seq.length ∧
      (calculate_seek_time init seq).1 =
        ((calculate_seek_time init seq).2.map (fun p => |p.2 - p.1|)).sum ∧
      opsChain init (calculate_seek_time init seq).2 ∧
      calculate_seek_time init [] = (0, []) :=
  fun init seq => ⟨calc_len init seq, calc_sum init seq, calc_chain init seq, rfl⟩

/-- C7: FCFS services the requests exactly in input order, and the
concrete scenario (requests 98,183,37,122,14,124,65,67 from position 53
on a 200-track disk) costs 640. -/
theorem fcfs_is_input_order :
    (∀ s : DiskScheduler, s.fcfs.1 = s.requests) ∧
    (DiskScheduler.fcfs ⟨[98, 183, 37, 122, 14, 124, 65, 67], 53, 200⟩).1 =
      [98, 183, 37, 122, 14, 124, 65, 67] ∧
    (DiskScheduler.fcfs ⟨[98, 183, 37, 122, 14, 124, 65, 67], 53, 200⟩).2.1 =
      640 :=
  ⟨fun _ => rfl, rfl, by decide⟩

/-- Validation succeeds exactly when every request is inside the track
range; the initial position plays no part. -/
lemma validate_none_iff (reqs : List Int) (disk : Int) :
    validate_requests reqs disk = none ↔ ∀ r ∈ reqs, 0 ≤ r ∧ r < disk := by
  induction reqs with
  | nil => simp [validate_requests]
  | cons r rs ih =>
    by_cases h : r < 0 ∨ disk ≤ r
    · simp only [validate_requests, if_pos h, List.mem_cons]
      constructor
      · intro hc; exact absurd hc (by simp)
      · intro hall
        rcases hall r (Or.inl rfl) with ⟨h1, h2⟩
        omega
    · simp only [validate_requests, if_neg h, List.mem_cons, ih]
      constructor
      · intro hall y hy
        rcases hy with rfl | hy
        · omega
        · exact hall y hy
      · intro hall y hy; exact hall y (Or.inr hy)

/-- A raised validation error always names an offending request together
with the range 0..disk_size - 1. -/
lemma validate_some_shape (reqs : List Int) (disk : Int) :
    ∀ e, validate_requests reqs disk = some e →
      ∃ r ∈ reqs, (r < 0 ∨ disk ≤ r) ∧ e = SchedError.outOfBounds r 0 (disk - 1) := by
  induction reqs with
  | nil => intro e he; exact absurd he (by simp [validate_requests])
  | cons r rs ih =>
    intro e he
    by_cases h : r < 0 ∨ disk ≤ r
    · rw [validate_requests, if_pos h] at he
      exact ⟨r, List.mem_cons_self r rs, h, (Option.some.injEq _ _ ▸ he).symm⟩
    · rw [validate_requests, if_neg h] at he
      rcases ih e he with ⟨y, hy, hout, rfl⟩
      exact ⟨y, List.mem_cons_of_mem r hy, hout, rfl⟩

/-- C3 counterexample: constructing the scheduler with initial position
200 on a 200-track disk (a position outside the valid range 0..199)
raises no error at all, refuting the claim that it raises OutOfBounds. -/
theorem construction_accepts_out_of_range_position :
    mkDiskScheduler [] 200 200 = Except.ok ⟨[], 200, 200⟩ := rfl

/-- C3 amended: construction raises OutOfBounds exactly when some request
is outside the track range; the initial head position is never examined
(any value, in or out of range, is accepted), and in-range requests such
as 0 and disk_size - 1 raise no error. -/
theorem validation_covers_requests_only :
    ∀ (reqs : List Int) (init disk : Int),
      (mkDiskScheduler reqs init disk = Except.ok ⟨reqs, init, disk⟩ ↔
        ∀ r ∈ reqs, 0 ≤ r ∧ r < disk) ∧
      (∀ e, mkDiskScheduler reqs init disk = Except.error e →
        ∃ r ∈ reqs, (r < 0 ∨ disk ≤ r) ∧
          e = SchedError.outOfBounds r 0 (disk - 1)) := by
  intro reqs init disk
  constructor
  · rw [← validate_none_iff reqs disk]
    unfold mkDiskScheduler
    cases h : validate_requests reqs disk with
    | none => simp
    | some e => simp [h]
  · intro e he
    unfold mkDiskScheduler at he
    cases h : validate_requests reqs disk with
    | none => rw [h] at he; exact absurd he (by simp)
    | some e2 =>
      rw [h] at he
      have : e2 = e := by simpa using he
      exact this ▸ validate_some_shape reqs disk e2 h

/-- C2 counterexample: with the single request 10, head at 50, moving
right, SCAN's service order is 199 followed by 10, which is not a
permutation of the request list (the edge track 199 was added). -/
theorem scan_order_not_a_permutation :
    (DiskScheduler.scan ⟨[10], 50, 200⟩ "right").1 = [199, 10] ∧
    ¬ (DiskScheduler.scan ⟨[10], 50, 200⟩ "right").1.Perm [10] :=
  ⟨rfl, by decide⟩

/-- C4 counterexample: requests 60 and 40 are both 10 tracks from the
head at 50, yet SSTF services 60 first (the earlier request in input
order), not the lowest-valued 40, refuting the lowest-value tie-break. -/
theorem sstf_tie_not_lowest_valued :
    (DiskScheduler.sstf ⟨[60, 40], 50, 200⟩).1 = [60, 40] ∧
    |(60 : Int) - 50| = |(40 : Int) - 50| ∧ (40 : Int) < 60 := by
  refine ⟨by decide, by decide, by decide⟩

/-- Sorting a permuted list does not change which lists are empty. -/
lemma perm_nil_iff {l l' : List Int} (h : l.Perm l') : l = [] ↔ l' = [] := by
  rw [← List.length_eq_zero, ← List.length_eq_zero, h.length_eq]

/-- The spec-side ascending sort is sorted. -/
lemma specSortAsc_sorted (l : List Int) :
    List.Sorted (· ≤ ·) (specSortAsc l) := by
  have h := @List.sorted_mergeSort Int (fun a b => decide (a ≤ b))
    (fun a b c h1 h2 => by simp only [decide_eq_true_eq] at h1 h2 ⊢; omega)
    (fun a b => by simp only [Bool.or_eq_true, decide_eq_true_eq]; omega) l
  exact h.imp (fun hab => by simpa using hab)

/-- The spec-side descending sort is sorted downward. -/
lemma specSortDesc_sorted (l : List Int) :
    List.Sorted (· ≥ ·) (specSortDesc l) := by
  have h := @List.sorted_mergeSort Int (fun a b => decide (b ≤ a))
    (fun a b c h1 h2 => by simp only [decide_eq_true_eq] at h1 h2 ⊢; omega)
    (fun a b => by simp only [Bool.or_eq_true, decide_eq_true_eq]; omega) l
  exact h.imp (fun hab => by simpa using hab)

/-- Ascending sorts of permutation-equal integer lists agree, whichever
sorting algorithm produced them. -/
lemma asc_sort_eq {l l' : List Int} (h : l.Perm l') :
    pySorted l = specSortAsc l' :=
  List.eq_of_perm_of_sorted
    ((List.perm_insertionSort _ l).trans
      (h.trans (List.mergeSort_perm l' _).symm))
    (List.sorted_insertionSort _ l) (specSortAsc_sorted l')

/-- Descending sorts of permutation-equal integer lists agree. -/
lemma desc_sort_eq {l l' : List Int} (h : l.Perm l') :
    pySortedDesc l = specSortDesc l' :=
  List.eq_of_perm_of_sorted
    ((List.perm_insertionSort _ l).trans
      (h.trans (List.mergeSort_perm l' _).symm))
    (List.sorted_insertionSort _ l) (specSortDesc_sorted l')

/-- Core of C5: scan's computed sequence coincides with the spec's
directional-sweep description on the original request list. -/
lemma scan_seq_eq_spec (s : DiskScheduler) (dir : String) :
    (s.scan dir).1 =
      scanSpec s.requests s.initial_position s.disk_size
        (pyLower dir == "right") := by
  have hperm := List.perm_insertionSort (· ≤ ·) s.requests
  simp only [DiskScheduler.scan, scanSpec, pySorted] at *
  cases hb : (pyLower dir == "right") with
  | true =>
    simp only [hb, eq_self_iff_true, if_true]
    have hR := hperm.filter (fun r => decide (r ≥ s.initial_position))
    have hL := hperm.filter (fun r => decide (r < s.initial_position))
    rw [show List.insertionSort (· ≤ ·)
          ((List.insertionSort (· ≤ ·) s.requests).filter
            (fun r => decide (r ≥ s.initial_position))) =
        specSortAsc (s.requests.filter
            (fun r => decide (r ≥ s.initial_position))) from asc_sort_eq hR]
    by_cases hLa :
        s.requests.filter (fun r => decide (r < s.initial_position)) = []
    · rw [if_pos ((perm_nil_iff hL).mpr hLa), if_pos hLa]
    · rw [if_neg (fun c => hLa ((perm_nil_iff hL).mp c)), if_neg hLa,
        show pySortedDesc ((List.insertionSort (· ≤ ·) s.requests).filter
            (fun r => decide (r < s.initial_position))) =
          specSortDesc (s.requests.filter
            (fun r => decide (r < s.initial_position))) from desc_sort_eq hL]
  | false =>
    simp only [hb, Bool.false_eq_true, if_false]
    have hR := hperm.filter (fun r => decide (r > s.initial_position))
    have hL := hperm.filter (fun r => decide (r ≤ s.initial_position))
    rw [show pySortedDesc ((List.insertionSort (· ≤ ·) s.requests).filter
            (fun r => decide (r ≤ s.initial_position))) =
        specSortDesc (s.requests.filter
            (fun r => decide (r ≤ s.initial_position))) from desc_sort_eq hL]
    by_cases hRa :
        s.requests.filter (fun r => decide (r > s.initial_position)) = []
    · rw [if_pos ((perm_nil_iff hR).mpr hRa), if_pos hRa]
    · rw [if_neg (fun c => hRa ((perm_nil_iff hR).mp c)), if_neg hRa,
        show List.insertionSort (· ≤ ·)
            ((List.insertionSort (· ≤ ·) s.requests).filter
              (fun r => decide (r > s.initial_position))) =
          specSortAsc (s.requests.filter
            (fun r => decide (r > s.initial_position))) from asc_sort_eq hR]

/-- C5: SCAN services the requests at or past the head (moving right) in
increasing order, visits the edge disk_size - 1 exactly when a request
lies behind, then services the behind group in decreasing order; mirrored
(split on at-or-below / above with edge 0) for any other direction. -/
theorem scan_directional_sweep :
    ∀ (s : DiskScheduler) (dir : String),
      (s.scan dir).1 =
        scanSpec s.requests s.initial_position s.disk_size
          (pyLower dir == "right") :=
  scan_seq_eq_spec

/-- Core of C6: c_scan's computed sequence coincides with the spec's
circular-sweep description on the original request list. -/
lemma c_scan_seq_eq_spec (s : DiskScheduler) (dir : String) :
    (s.c_scan dir).1 =
      cscanSpec s.requests s.initial_position s.disk_size
        (pyLower dir == "right") := by
  have hperm := List.perm_insertionSort (· ≤ ·) s.requests
  simp only [DiskScheduler.c_scan, cscanSpec, pySorted] at *
  cases hb : (pyLower dir == "right") with
  | true =>
    simp only [hb, eq_self_iff_true, if_true]
    have hR := hperm.filter (fun r => decide (r ≥ s.initial_position))
    have hL := hperm.filter (fun r => decide (r < s.initial_position))
    rw [show List.insertionSort (· ≤ ·)
          ((List.insertionSort (· ≤ ·) s.requests).filter
            (fun r => decide (r ≥ s.initial_position))) =
        specSortAsc (s.requests.filter
            (fun r => decide (r ≥ s.initial_position))) from asc_sort_eq hR]
    by_cases hLa :
        s.requests.filter (fun r => decide (r < s.initial_position)) = []
    · rw [if_pos ((perm_nil_iff hL).mpr hLa), if_pos hLa]
    · rw [if_neg (fun c => hLa ((perm_nil_iff hL).mp c)), if_neg hLa,
        show List.insertionSort (· ≤ ·)
            ((List.insertionSort (· ≤ ·) s.requests).filter
              (fun r => decide (r < s.initial_position))) =
          specSortAsc (s.requests.filter
            (fun r => decide (r < s.initial_position))) from asc_sort_eq hL]
  | false =>
    simp only [hb, Bool.false_eq_true, if_false]
    have hR := hperm.filter (fun r => decide (r > s.initial_position))
    have hL := hperm.filter (fun r => decide (r ≤ s.initial_position))
    rw [show pySortedDesc ((List.insertionSort (· ≤ ·) s.requests).filter
            (fun r => decide (r ≤ s.initial_position))) =
        specSortDesc (s.requests.filter
            (fun r => decide (r ≤ s.initial_position))) from desc_sort_eq hL]
    by_cases hRa :
        s.requests.filter (fun r => decide (r > s.initial_position)) = []
    · rw [if_pos ((perm_nil_iff hR).mpr hRa), if_pos hRa]
    · rw [if_neg (fun c => hRa ((perm_nil_iff hR).mp c)), if_neg hRa,
        show pySortedDesc ((List.insertionSort (· ≤ ·) s.requests).filter
              (fun r => decide (r > s.initial_position))) =
          specSortDesc (s.requests.filter
            (fun r => decide (r > s.initial_position))) from desc_sort_eq hR]

/-- C6: moving right, C-SCAN services the requests at or past the head in
increasing order and, exactly when requests lie behind, visits the edge
disk_size - 1 then the opposite edge 0 and services the remaining
requests again in increasing order; mirrored with waypoints 0 then
disk_size - 1 and decreasing order throughout for any other direction. -/
theorem c_scan_circular_sweep :
    ∀ (s : DiskScheduler) (dir : String),
      (s.c_scan dir).1 =
        cscanSpec s.requests s.initial_position s.disk_size
          (pyLower dir == "right") :=
  c_scan_seq_eq_spec

/-- Python's min always returns an element of the scanned list. -/
lemma pyMinKey_mem (key : Int → Int) :
    ∀ (xs : List Int) (best : Int), pyMinKey key best xs ∈ best :: xs := by
  intro xs
  induction xs with
  | nil => intro best; simp [pyMinKey]
  | cons x xs ih =>
    intro best
    rw [pyMinKey]
    by_cases hc : key x < key best
    · rw [if_pos hc]
      rcases List.mem_cons.mp (ih x) with h | h
      · rw [h]; exact List.mem_cons_of_mem _ (List.mem_cons_self _ _)
      · exact List.mem_cons_of_mem _ (List.mem_cons_of_mem _ h)
    · rw [if_neg hc]
      rcases List.mem_cons.mp (ih best) with h | h
      · rw [h]; exact List.mem_cons_self _ _
      · exact List.mem_cons_of_mem _ (List.mem_cons_of_mem _ h)

/-- The sstf loop permutes its remaining-request list, given enough
fuel. -/
lemma sstf_go_perm :
    ∀ (fuel : Nat) (pos : Int) (l : List Int), l.length ≤ fuel →
      (sstf_go fuel pos l).Perm l := by
  intro fuel
  induction fuel with
  | zero =>
    intro pos l h
    have : l = [] := List.length_eq_zero.mp (Nat.le_zero.mp h)
    subst this; simp [sstf_go]
  | succ f ih =>
    intro pos l h
    cases l with
    | nil => simp [sstf_go]
    | cons x xs =>
      rw [sstf_go]
      have hm : pyMinKey (fun t => |t - pos|) x xs ∈ x :: xs :=
        pyMinKey_mem _ xs x
      have hlen : ((x :: xs).erase (pyMinKey (fun t => |t - pos|) x xs)).length ≤ f := by
        rw [List.length_erase_of_mem hm]
        simp only [List.length_cons] at h ⊢
        omega
      exact ((ih _ _ hlen).cons _).trans (List.perm_cons_erase hm).symm

/-- Splitting on at-or-past / behind covers the whole list. -/
lemma split_ge_lt_perm (cur : Int) (l : List Int) :
    (l.filter (fun r => decide (r ≥ cur)) ++
      l.filter (fun r => decide (r < cur))).Perm l := by
  have hc : l.filter (fun r => !decide (r ≥ cur)) =
      l.filter (fun r => decide (r < cur)) :=
    List.filter_congr (fun x _ => by
      by_cases hx : x < cur
      · simp [hx, not_le.mpr hx]
      · simp [hx, not_lt.mp hx])
  have h := List.filter_append_perm (fun r => decide (r ≥ cur)) l
  rw [hc] at h
  exact h

/-- Splitting on at-or-below / above covers the whole list. -/
lemma split_le_gt_perm (cur : Int) (l : List Int) :
    (l.filter (fun r => decide (r ≤ cur)) ++
      l.filter (fun r => decide (r > cur))).Perm l := by
  have hc : l.filter (fun r => !decide (r ≤ cur)) =
      l.filter (fun r => decide (r > cur)) :=
    List.filter_congr (fun x _ => by
      by_cases hx : cur < x
      · simp [hx, not_le.mpr hx]
      · simp [hx, not_lt.mp hx])
  have h := List.filter_append_perm (fun r => decide (r ≤ cur)) l
  rw [hc] at h
  exact h

/-- The spec-side ascending sort permutes its input. -/
lemma specSortAsc_perm (l : List Int) : (specSortAsc l).Perm l :=
  List.mergeSort_perm l _

/-- The spec-side descending sort permutes its input. -/
lemma specSortDesc_perm (l : List Int) : (specSortDesc l).Perm l :=
  List.mergeSort_perm l _

/-- The scan sequence is the requests plus the edge waypoint demanded by
the reversal, up to order. -/
lemma scan_seq_perm (s : DiskScheduler) (dir : String) :
    (s.scan dir).1.Perm (s.requests ++ scanExtra s dir) := by
  rw [scan_seq_eq_spec]
  unfold scanSpec scanExtra
  cases hb : (pyLower dir == "right") with
  | true =>
    simp only [eq_self_iff_true, if_true]
    have hsplit := split_ge_lt_perm s.initial_position s.requests
    by_cases hB :
        s.requests.filter (fun r => decide (r < s.initial_position)) = []
    · rw [if_pos hB, if_pos hB, List.append_nil, List.append_nil]
      rw [hB, List.append_nil] at hsplit
      exact (specSortAsc_perm _).trans hsplit
    · rw [if_neg hB, if_neg hB]
      refine ((specSortAsc_perm _).append
        (((specSortDesc_perm _).cons _))).trans ?_
      refine (List.Perm.append_left _
        (List.perm_append_singleton _ _).symm).trans ?_
      rw [← List.append_assoc]
      exact hsplit.append_right _
  | false =>
    simp only [Bool.false_eq_true, if_false]
    have hsplit := split_le_gt_perm s.initial_position s.requests
    by_cases hB :
        s.requests.filter (fun r => decide (r > s.initial_position)) = []
    · rw [if_pos hB, if_pos hB, List.append_nil, List.append_nil]
      rw [hB, List.append_nil] at hsplit
      exact (specSortDesc_perm _).trans hsplit
    · rw [if_neg hB, if_neg hB]
      refine ((specSortDesc_perm _).append
        (((specSortAsc_perm _).cons _))).trans ?_
      refine (List.Perm.append_left _
        (List.perm_append_singleton _ _).symm).trans ?_
      rw [← List.append_assoc]
      exact hsplit.append_right _

/-- The c_scan sequence is the requests plus both edge waypoints demanded
by the wrap, up to order. -/
lemma c_scan_seq_perm (s : DiskScheduler) (dir : String) :
    (s.c_scan dir).1.Perm (s.requests ++ cscanExtra s dir) := by
  rw [c_scan_seq_eq_spec]
  unfold cscanSpec cscanExtra
  cases hb : (pyLower dir == "right") with
  | true =>
    simp only [eq_self_iff_true, if_true]
    have hsplit := split_ge_lt_perm s.initial_position s.requests
    by_cases hB :
        s.requests.filter (fun r => decide (r < s.initial_position)) = []
    · rw [if_pos hB, if_pos hB, List.append_nil, List.append_nil]
      rw [hB, List.append_nil] at hsplit
      exact (specSortAsc_perm _).trans hsplit
    · rw [if_neg hB, if_neg hB]
      refine ((specSortAsc_perm _).append
        ((((specSortAsc_perm _).cons _).cons _))).trans ?_
      refine (List.Perm.append_left _
        (@List.perm_append_comm Int [s.disk_size - 1, 0] _)).trans ?_
      rw [← List.append_assoc]
      exact hsplit.append_right _
  | false =>
    simp only [Bool.false_eq_true, if_false]
    have hsplit := split_le_gt_perm s.initial_position s.requests
    by_cases hB :
        s.requests.filter (fun r => decide (r > s.initial_position)) = []
    · rw [if_pos hB, if_pos hB, List.append_nil, List.append_nil]
      rw [hB, List.append_nil] at hsplit
      exact (specSortDesc_perm _).trans hsplit
    · rw [if_neg hB, if_neg hB]
      refine ((specSortDesc_perm _).append
        ((((specSortDesc_perm _).cons _).cons _))).trans ?_
      refine (List.Perm.append_left _
        (@List.perm_append_comm Int [0, s.disk_size - 1] _)).trans ?_
      rw [← List.append_assoc]
      exact hsplit.append_right _

/-- The look sequence permutes the requests exactly (no edge visit). -/
lemma look_seq_perm (s : DiskScheduler) (dir : String) :
    (s.look dir).1.Perm s.requests := by
  have hperm := List.perm_insertionSort (· ≤ ·) s.requests
  simp only [DiskScheduler.look, pySorted]
  by_cases hnil : List.insertionSort (· ≤ ·) s.requests = []
  · rw [if_pos hnil]
    have : s.requests = [] := (perm_nil_iff hperm).mp hnil
    rw [this]
  · rw [if_neg hnil]
    cases hb : (pyLower dir == "right") with
    | true =>
      simp only [eq_self_iff_true, if_true]
      have hsplit := (split_ge_lt_perm s.initial_position _).trans hperm
      by_cases hB : (List.insertionSort (· ≤ ·) s.requests).filter
          (fun r => decide (r < s.initial_position)) = []
      · rw [if_pos hB, List.append_nil]
        rw [hB, List.append_nil] at hsplit
        exact (List.perm_insertionSort _ _).trans hsplit
      · rw [if_neg hB]
        exact (((List.perm_insertionSort _ _).append
          (List.perm_insertionSort _ _))).trans hsplit
    | false =>
      simp only [Bool.false_eq_true, if_false]
      have hsplit := (split_le_gt_perm s.initial_position _).trans hperm
      by_cases hB : (List.insertionSort (· ≤ ·) s.requests).filter
          (fun r => decide (r > s.initial_position)) = []
      · rw [if_pos hB, List.append_nil]
        rw [hB, List.append_nil] at hsplit
        exact (List.perm_insertionSort _ _).trans hsplit
      · rw [if_neg hB]
        exact (((List.perm_insertionSort _ _).append
          (List.perm_insertionSort _ _))).trans hsplit

/-- The c_look sequence permutes the requests exactly (no waypoints). -/
lemma c_look_seq_perm (s : DiskScheduler) (dir : String) :
    (s.c_look dir).1.Perm s.requests := by
  have hperm := List.perm_insertionSort (· ≤ ·) s.requests
  simp only [DiskScheduler.c_look, pySorted]
  by_cases hnil : List.insertionSort (· ≤ ·) s.requests = []
  · rw [if_pos hnil]
    have : s.requests = [] := (perm_nil_iff hperm).mp hnil
    rw [this]
  · rw [if_neg hnil]
    cases hb : (pyLower dir == "right") with
    | true =>
      simp only [eq_self_iff_true, if_true]
      have hsplit := (split_ge_lt_perm s.initial_position _).trans hperm
      by_cases hB : (List.insertionSort (· ≤ ·) s.requests).filter
          (fun r => decide (r < s.initial_position)) = []
      · rw [if_pos hB, List.append_nil]
        rw [hB, List.append_nil] at hsplit
        exact (List.perm_insertionSort _ _).trans hsplit
      · rw [if_neg hB]
        exact (((List.perm_insertionSort _ _).append
          (List.perm_insertionSort _ _))).trans hsplit
    | false =>
      simp only [Bool.false_eq_true, if_false]
      have hsplit := (split_le_gt_perm s.initial_position _).trans hperm
      by_cases hB : (List.insertionSort (· ≤ ·) s.requests).filter
          (fun r => decide (r > s.initial_position)) = []
      · rw [if_pos hB, List.append_nil]
        rw [hB, List.append_nil] at hsplit
        exact (List.perm_insertionSort _ _).trans hsplit
      · rw [if_neg hB]
        exact (((List.perm_insertionSort _ _).append
          (List.perm_insertionSort _ _))).trans hsplit

/-- C2 amended: SSTF, LOOK and C-LOOK service orders are permutations of
the request list; SCAN and C-SCAN service orders are permutations of the
request list extended by the edge waypoints they insert when a reversal
or wrap occurs (so they are plain permutations only when no request lies
on the other side of the head). -/
theorem service_orders_are_permutations :
    ∀ (s : DiskScheduler) (dir : String),
      s.sstf.1.Perm s.requests ∧
      (s.look dir).1.Perm s.requests ∧
      (s.c_look dir).1.Perm s.requests ∧
      (s.scan dir).1.Perm (s.requests ++ scanExtra s dir) ∧
      (s.c_scan dir).1.Perm (s.requests ++ cscanExtra s dir) :=
  fun s dir =>
    ⟨sstf_go_perm s.requests.length s.initial_position s.requests le_rfl,
     look_seq_perm s dir, c_look_seq_perm s dir,
     scan_seq_perm s dir, c_scan_seq_perm s dir⟩

/-- Python's min returns the first element attaining the minimal key: its
key is minimal over the whole list, and every element strictly before it
in the list has a strictly larger key. -/
lemma pyMinKey_first_min (key : Int → Int) :
    ∀ (xs : List Int) (best : Int),
      (∀ y ∈ best :: xs, key (pyMinKey key best xs) ≤ key y) ∧
      ∃ l1 l2, best :: xs = l1 ++ pyMinKey key best xs :: l2 ∧
        ∀ y ∈ l1, key (pyMinKey key best xs) < key y := by
  intro xs
  induction xs with
  | nil =>
    intro best
    refine ⟨?_, [], [], by simp [pyMinKey], by simp⟩
    intro y hy
    rcases List.mem_cons.mp hy with rfl | h
    · simp [pyMinKey]
    · exact absurd h (List.not_mem_nil y)
  | cons x xs ih =>
    intro best
    rw [pyMinKey]
    by_cases hc : key x < key best
    · rw [if_pos hc]
      have hmin := (ih x).1
      obtain ⟨l1, l2, hsplit, hl1⟩ := (ih x).2
      constructor
      · intro y hy
        rcases List.mem_cons.mp hy with rfl | hy2
        · exact le_of_lt
            (lt_of_le_of_lt (hmin x (List.mem_cons_self x xs)) hc)
        · exact hmin y hy2
      · refine ⟨best :: l1, l2, by rw [List.cons_append, ← hsplit], ?_⟩
        intro y hy
        rcases List.mem_cons.mp hy with rfl | hy2
        · exact lt_of_le_of_lt (hmin x (List.mem_cons_self x xs)) hc
        · exact hl1 y hy2
    · rw [if_neg hc]
      have hmin := (ih best).1
      obtain ⟨l1, l2, hsplit, hl1⟩ := (ih best).2
      constructor
      · intro y hy
        rcases List.mem_cons.mp hy with rfl | hy2
        · exact hmin y (List.mem_cons_self y xs)
        · rcases List.mem_cons.mp hy2 with rfl | hy3
          · exact le_trans (hmin best (List.mem_cons_self best xs))
              (not_lt.mp hc)
          · exact hmin y (List.mem_cons_of_mem best hy3)
      · cases l1 with
        | nil =>
          rw [List.nil_append] at hsplit
          have h1 : best = pyMinKey key best xs ∧ xs = l2 := by
            injection hsplit with u v; exact ⟨u, v⟩
          refine ⟨[], x :: xs, ?_, by simp⟩
          rw [List.nil_append, ← h1.1]
        | cons a l1' =>
          rw [List.cons_append] at hsplit
          have h1 : best = a ∧ xs = l1' ++ pyMinKey key best xs :: l2 := by
            injection hsplit with u v; exact ⟨u, v⟩
          have hma : key (pyMinKey key best xs) < key best :=
            h1.1 ▸ hl1 a (List.mem_cons_self a l1')
          refine ⟨best :: x :: l1', l2, ?_, ?_⟩
          · rw [List.cons_append, List.cons_append, ← h1.2]
          · intro y hy
            rcases List.mem_cons.mp hy with rfl | hy2
            · exact hma
            · rcases List.mem_cons.mp hy2 with rfl | hy3
              · exact lt_of_lt_of_le hma (not_lt.mp hc)
              · exact hl1 y (List.mem_cons_of_mem a hy3)

/-- C4 amended: SSTF repeatedly services a remaining request of minimal
absolute distance from the head, breaking ties in favor of the earliest
request in the remaining (input-ordered) list, not the lowest-valued one;
each serviced request is removed until the list is empty. The concrete
scenario (requests 98,183,37,122,14,124,65,67 from position 53) yields
order 65,67,37,14,98,122,124,183 with total seek time 236. -/
theorem sstf_nearest_first_earliest_tie :
    (∀ (fuel : Nat) (pos : Int), sstf_go fuel pos [] = []) ∧
    (∀ (pos x : Int) (xs : List Int) (k : Nat),
      (∀ y ∈ x :: xs,
        |pyMinKey (fun t => |t - pos|) x xs - pos| ≤ |y - pos|) ∧
      (∃ l1 l2, x :: xs = l1 ++ pyMinKey (fun t => |t - pos|) x xs :: l2 ∧
        ∀ y ∈ l1, |pyMinKey (fun t => |t - pos|) x xs - pos| < |y - pos|) ∧
      sstf_go (xs.length + k + 1) pos (x :: xs) =
        pyMinKey (fun t => |t - pos|) x xs ::
          sstf_go (xs.length + k) (pyMinKey (fun t => |t - pos|) x xs)
            ((x :: xs).erase (pyMinKey (fun t => |t - pos|) x xs))) ∧
    (∀ s : DiskScheduler,
      s.sstf.1 = sstf_go s.requests.length s.initial_position s.requests) ∧
    (DiskScheduler.sstf ⟨[98, 183, 37, 122, 14, 124, 65, 67], 53, 200⟩).1 =
      [65, 67, 37, 14, 98, 122, 124, 183] ∧
    (DiskScheduler.sstf ⟨[98, 183, 37, 122, 14, 124, 65, 67], 53, 200⟩).2.1 =
      236 :=
  ⟨fun fuel _ => by cases fuel <;> rfl,
   fun pos x xs k =>
     ⟨(pyMinKey_first_min (fun t => |t - pos|) xs x).1,
      (pyMinKey_first_min (fun t => |t - pos|) xs x).2, rfl⟩,
   fun _ => rfl, by decide, by decide⟩

/-- C9: simulate succeeds with a complete result exactly when the
uppercased algorithm name is one of the recognized spellings (FCFS, SSTF,
SCAN, C-SCAN or CSCAN, LOOK, C-LOOK or CLOOK), and otherwise fails with
UnknownAlgorithm naming the uppercased input, independent of the request
contents. -/
theorem unknown_algorithm_dispatch :
    ∀ (s : DiskScheduler) (alg dir : String),
      ((∃ r, s.simulate alg dir = Except.ok r) ↔ pyUpper alg ∈ knownAlgs) ∧
      (s.simulate alg dir =
          Except.error (SchedError.unknownAlgorithm (pyUpper alg)) ↔
        pyUpper alg ∉ knownAlgs) := by
  intro s alg dir
  unfold DiskScheduler.simulate
  simp only [knownAlgs, List.mem_cons, List.not_mem_nil, or_false]
  by_cases h1 : pyUpper alg = "FCFS"
  · simp [h1]
  by_cases h2 : pyUpper alg = "SSTF"
  · simp [h1, h2]
  by_cases h3 : pyUpper alg = "SCAN"
  · simp [h1, h2, h3]
  by_cases h4 : pyUpper alg = "C-SCAN"
  · simp [h1, h2, h3, h4]
  by_cases h5 : pyUpper alg = "CSCAN"
  · simp [h1, h2, h3, h4, h5]
  by_cases h6 : pyUpper alg = "LOOK"
  · simp [h1, h2, h3, h4, h5, h6]
  by_cases h7 : pyUpper alg = "C-LOOK"
  · simp [h1, h2, h3, h4, h5, h6, h7]
  by_cases h8 : pyUpper alg = "CLOOK"
  · simp [h1, h2, h3, h4, h5, h6, h7, h8]
  · simp [h1, h2, h3, h4, h5, h6, h7, h8]

/-- In a sorted list that contains a bound of all its elements, that
bound is the last element. -/
lemma sorted_ends_with_max {rel : Int → Int → Prop} [IsAntisymm Int rel] :
    ∀ (l : List Int) (m : Int), List.Pairwise rel l → m ∈ l →
      (∀ x ∈ l, rel x m) → ∃ l', l = l' ++ [m] := by
  intro l
  induction l with
  | nil => intro m _ hm _; exact absurd hm (List.not_mem_nil m)
  | cons a t ih =>
    intro m hp hm hall
    cases t with
    | nil =>
      rcases List.mem_cons.mp hm with rfl | h
      · exact ⟨[], rfl⟩
      · exact absurd h (List.not_mem_nil m)
    | cons b t' =>
      have hm' : m ∈ b :: t' := by
        rcases List.mem_cons.mp hm with rfl | h
        · have hab : rel m b :=
            (List.pairwise_cons.mp hp).1 b (List.mem_cons_self b t')
          have hba : rel b m :=
            hall b (List.mem_cons_of_mem _ (List.mem_cons_self b t'))
          have hbm : b = m := antisymm hba hab
          exact hbm ▸ List.mem_cons_self b t'
        · exact h
      obtain ⟨l', hl'⟩ := ih m (List.pairwise_cons.mp hp).2 hm'
        (fun x hx => hall x (List.mem_cons_of_mem a hx))
      exact ⟨a :: l', by rw [List.cons_append, ← hl']⟩

/-- The ascending spec sort of a list containing its own maximum ends
with that maximum. -/
lemma sortAsc_ends_max {l : List Int} {m : Int} (hm : m ∈ l)
    (hbound : ∀ x ∈ l, x ≤ m) : ∃ l', specSortAsc l = l' ++ [m] :=
  sorted_ends_with_max (specSortAsc l) m (specSortAsc_sorted l)
    ((specSortAsc_perm l).mem_iff.mpr hm)
    (fun x hx => hbound x ((specSortAsc_perm l).mem_iff.mp hx))

/-- The descending spec sort of a list containing its own minimum ends
with that minimum. -/
lemma sortDesc_ends_min {l : List Int} {m : Int} (hm : m ∈ l)
    (hbound : ∀ x ∈ l, m ≤ x) : ∃ l', specSortDesc l = l' ++ [m] :=
  @sorted_ends_with_max (· ≥ ·) _ (specSortDesc l) m (specSortDesc_sorted l)
    ((specSortDesc_perm l).mem_iff.mpr hm)
    (fun x hx => hbound x ((specSortDesc_perm l).mem_iff.mp hx))

/-- A block ending in e followed by another e yields adjacent
duplicates. -/
lemma append_dup {X rest : List Int} {e : Int} (h : ∃ l', X = l' ++ [e]) :
    ∃ l1 l2, X ++ e :: rest = l1 ++ e :: e :: l2 := by
  obtain ⟨l', rfl⟩ := h
  exact ⟨l', rest, by simp⟩

/-- Servicing the same track twice in a row records a zero-distance seek
operation. -/
lemma calc_ops_pair :
    ∀ (l1 : List Int) (init e : Int) (l2 : List Int),
      (e, e) ∈ (calculate_seek_time init (l1 ++ e :: e :: l2)).2 := by
  intro l1
  induction l1 with
  | nil =>
    intro init e l2
    simp only [List.nil_append, calculate_seek_time]
    exact List.mem_cons_of_mem _ (List.mem_cons_self _ _)
  | cons x xs ih =>
    intro init e l2
    simp only [List.cons_append, calculate_seek_time]
    exact List.mem_cons_of_mem _ (ih x e l2)

/-- Scan's sequence moving right, when some request lies behind the
head. -/
lemma scan_right_seq (s : DiskScheduler)
    (hB : s.requests.filter
      (fun r => decide (r < s.initial_position)) ≠ []) :
    (s.scan "right").1 =
      specSortAsc (s.requests.filter
          (fun r => decide (r ≥ s.initial_position))) ++
        (s.disk_size - 1) ::
          specSortDesc (s.requests.filter
            (fun r => decide (r < s.initial_position))) := by
  rw [scan_seq_eq_spec]
  have hb : (pyLower "right" == "right") = true := rfl
  rw [hb]
  unfold scanSpec
  dsimp only
  rw [if_pos rfl, if_neg hB]

/-- Scan's sequence moving left, when some request lies above the
head. -/
lemma scan_left_seq (s : DiskScheduler)
    (hB : s.requests.filter
      (fun r => decide (r > s.initial_position)) ≠ []) :
    (s.scan "left").1 =
      specSortDesc (s.requests.filter
          (fun r => decide (r ≤ s.initial_position))) ++
        (0 : Int) ::
          specSortAsc (s.requests.filter
            (fun r => decide (r > s.initial_position))) := by
  rw [scan_seq_eq_spec]
  have hb : (pyLower "left" == "right") = false := rfl
  rw [hb]
  unfold scanSpec
  dsimp only
  rw [if_neg (by simp), if_neg hB]

/-- C_scan's sequence moving right, when some request lies behind the
head. -/
lemma c_scan_right_seq (s : DiskScheduler)
    (hB : s.requests.filter
      (fun r => decide (r < s.initial_position)) ≠ []) :
    (s.c_scan "right").1 =
      specSortAsc (s.requests.filter
          (fun r => decide (r ≥ s.initial_position))) ++
        (s.disk_size - 1) :: (0 : Int) ::
          specSortAsc (s.requests.filter
            (fun r => decide (r < s.initial_position))) := by
  rw [c_scan_seq_eq_spec]
  have hb : (pyLower "right" == "right") = true := rfl
  rw [hb]
  unfold cscanSpec
  dsimp only
  rw [if_pos rfl, if_neg hB]

/-- C_scan's sequence moving left, when some request lies above the
head. -/
lemma c_scan_left_seq (s : DiskScheduler)
    (hB : s.requests.filter
      (fun r => decide (r > s.initial_position)) ≠ []) :
    (s.c_scan "left").1 =
      specSortDesc (s.requests.filter
          (fun r => decide (r ≤ s.initial_position))) ++
        (0 : Int) :: (s.disk_size - 1) ::
          specSortDesc (s.requests.filter
            (fun r => decide (r > s.initial_position))) := by
  rw [c_scan_seq_eq_spec]
  have hb : (pyLower "left" == "right") = false := rfl
  rw [hb]
  unfold cscanSpec
  dsimp only
  rw [if_neg (by simp), if_neg hB]

/-- C10: for valid inputs moving right, when a request lies below the
head and disk_size - 1 is itself a request, SCAN and C-SCAN both service
disk_size - 1 twice in immediate succession (once as the largest ahead
request, once as the appended edge waypoint) and record the zero-distance
operation (disk_size - 1, disk_size - 1); symmetrically track 0 is
duplicated moving left when 0 is a request and a request lies above the
head. -/
theorem scan_cscan_duplicate_edge :
    ∀ (s : DiskScheduler),
      (∀ r ∈ s.requests, 0 ≤ r ∧ r < s.disk_size) →
      0 ≤ s.initial_position → s.initial_position < s.disk_size →
      (((∃ r ∈ s.requests, r < s.initial_position) ∧
          (s.disk_size - 1) ∈ s.requests →
        (∃ l1 l2, (s.scan "right").1 =
            l1 ++ (s.disk_size - 1) :: (s.disk_size - 1) :: l2) ∧
        (s.disk_size - 1, s.disk_size - 1) ∈ (s.scan "right").2.2 ∧
        (∃ l1 l2, (s.c_scan "right").1 =
            l1 ++ (s.disk_size - 1) :: (s.disk_size - 1) :: l2) ∧
        (s.disk_size - 1, s.disk_size - 1) ∈ (s.c_scan "right").2.2) ∧
       ((∃ r ∈ s.requests, s.initial_position < r) ∧
          (0 : Int) ∈ s.requests →
        (∃ l1 l2, (s.scan "left").1 =
            l1 ++ (0 : Int) :: (0 : Int) :: l2) ∧
        ((0 : Int), (0 : Int)) ∈ (s.scan "left").2.2 ∧
        (∃ l1 l2, (s.c_scan "left").1 =
            l1 ++ (0 : Int) :: (0 : Int) :: l2) ∧
        ((0 : Int), (0 : Int)) ∈ (s.c_scan "left").2.2)) := by
  intro s hval hp0 hp1
  constructor
  · rintro ⟨⟨r0, hr0mem, hr0lt⟩, hedge⟩
    have hBne : s.requests.filter
        (fun r => decide (r < s.initial_position)) ≠ [] :=
      List.ne_nil_of_mem
        (List.mem_filter.mpr ⟨hr0mem, by simpa using hr0lt⟩)
    have hmemA : (s.disk_size - 1) ∈ s.requests.filter
        (fun r => decide (r ≥ s.initial_position)) :=
      List.mem_filter.mpr ⟨hedge, by simp only [decide_eq_true_eq]; omega⟩
    have hboundA : ∀ x ∈ s.requests.filter
        (fun r => decide (r ≥ s.initial_position)), x ≤ s.disk_size - 1 :=
      fun x hx => by
        have := (hval x (List.mem_of_mem_filter hx)).2; omega
    have hend := sortAsc_ends_max hmemA hboundA
    obtain ⟨l1, l2, hd⟩ := @append_dup _
      (specSortDesc (s.requests.filter
        (fun r => decide (r < s.initial_position)))) _ hend
    obtain ⟨m1, m2, hd2⟩ := @append_dup _
      ((0 : Int) :: specSortAsc (s.requests.filter
        (fun r => decide (r < s.initial_position)))) _ hend
    have hscan := (scan_right_seq s hBne).trans hd
    have hcscan := (c_scan_right_seq s hBne).trans hd2
    refine ⟨⟨l1, l2, hscan⟩, ?_, ⟨m1, m2, hcscan⟩, ?_⟩
    · have hops : (s.scan "right").2.2 =
          (calculate_seek_time s.initial_position (s.scan "right").1).2 :=
        rfl
      rw [hops, hscan]
      exact calc_ops_pair l1 _ _ l2
    · have hops : (s.c_scan "right").2.2 =
          (calculate_seek_time s.initial_position (s.c_scan "right").1).2 :=
        rfl
      rw [hops, hcscan]
      exact calc_ops_pair m1 _ _ m2
  · rintro ⟨⟨r0, hr0mem, hr0gt⟩, hzero⟩
    have hBne : s.requests.filter
        (fun r => decide (r > s.initial_position)) ≠ [] :=
      List.ne_nil_of_mem
        (List.mem_filter.mpr ⟨hr0mem, by simpa using hr0gt⟩)
    have hmemA : (0 : Int) ∈ s.requests.filter
        (fun r => decide (r ≤ s.initial_position)) :=
      List.mem_filter.mpr ⟨hzero, by simp only [decide_eq_true_eq]; omega⟩
    have hboundA : ∀ x ∈ s.requests.filter
        (fun r => decide (r ≤ s.initial_position)), (0 : Int) ≤ x :=
      fun x hx => (hval x (List.mem_of_mem_filter hx)).1
    have hend := sortDesc_ends_min hmemA hboundA
    obtain ⟨l1, l2, hd⟩ := @append_dup _
      (specSortAsc (s.requests.filter
        (fun r => decide (r > s.initial_position)))) _ hend
    obtain ⟨m1, m2, hd2⟩ := @append_dup _
      ((s.disk_size - 1) :: specSortDesc (s.requests.filter
        (fun r => decide (r > s.initial_position)))) _ hend
    have hscan := (scan_left_seq s hBne).trans hd
    have hcscan := (c_scan_left_seq s hBne).trans hd2
    refine ⟨⟨l1, l2, hscan⟩, ?_, ⟨m1, m2, hcscan⟩, ?_⟩
    · have hops : (s.scan "left").2.2 =
          (calculate_seek_time s.initial_position (s.scan "left").1).2 :=
        rfl
      rw [hops, hscan]
      exact calc_ops_pair l1 _ _ l2
    · have hops : (s.c_scan "left").2.2 =
          (calculate_seek_time s.initial_position (s.c_scan "left").1).2 :=
        rfl
      rw [hops, hcscan]
      exact calc_ops_pair m1 _ _ m2

/-- Witness for the duplicated-edge theorem: requests 0 and 199, head at
50, disk size 200, in both directions. -/
theorem scan_cscan_duplicate_edge_witness :
    ((199 : Int), (199 : Int)) ∈
        (DiskScheduler.scan ⟨[0, 199], 50, 200⟩ "right").2.2 ∧
      ((199 : Int), (199 : Int)) ∈
        (DiskScheduler.c_scan ⟨[0, 199], 50, 200⟩ "right").2.2 ∧
      ((0 : Int), (0 : Int)) ∈
        (DiskScheduler.scan ⟨[0, 199], 50, 200⟩ "left").2.2 ∧
      ((0 : Int), (0 : Int)) ∈
        (DiskScheduler.c_scan ⟨[0, 199], 50, 200⟩ "left").2.2 := by
  have h := scan_cscan_duplicate_edge ⟨[0, 199], 50, 200⟩
    (by decide) (by decide) (by decide)
  have hr := h.1 ⟨⟨0, by decide, by decide⟩, by decide⟩
  have hl := h.2 ⟨⟨199, by decide, by decide⟩, by decide⟩
  exact ⟨hr.2.1, hr.2.2.2, hl.2.1, hl.2.2.2⟩

end DiskSched
